import Mathlib

/-!
Verification of the emqu embedding/query pipeline (src/main.rs).

Modelling conventions:
* `f32` values are modelled as real numbers; an `f32` NaN is modelled as
  `Option.none`.  With finite inputs the only NaN the pipeline can produce
  is the `0/0` of `cosine_similarity` when an operand has zero norm
  (a zero norm forces every product in the zipped dot product to vanish,
  so the numerator is 0 as well).
* The serde_json store codec is modelled at the JSON-document level: the
  number type of the document carries the `f32` value exactly, which is
  what serde_json's ryu-based shortest round-trip decimal encoding
  guarantees for finite floats.
* Rust's stable `sort_by` with the panicking comparator
  `|a, b| b.0.partial_cmp(&a.0).unwrap()` is modelled as a stable
  insertion sort in the `Option` monad, `none` standing for the panic.
  Any correct stable comparison sort invokes the comparator at least once
  on every element when the list has two or more elements, so the
  panic/no-panic behaviour and the resulting order agree with the
  insertion-sort model.
-/

open scoped Classical

/-! ## Vector store codec (serde_json `to_writer` / `from_reader`) -/

/-- JSON documents, restricted to the constructors the store codec of
`Vec<(String, Vec<f32>)>` produces: strings, numbers and arrays. -/
inductive Json where
  | str : String → Json
  | num : ℝ → Json
  | arr : List Json → Json

/-- Serialization of one `(label, vector)` record: serde encodes a tuple as a
JSON array, a `Vec` as a JSON array and an `f32` as a JSON number. -/
def write_record (r : String × List ℝ) : Json :=
  Json.arr [Json.str r.1, Json.arr (r.2.map Json.num)]

/-- Serialization of the whole store (`serde_json::to_writer` on
`Vec<(String, Vec<f32>)>`). -/
def write_store (rs : List (String × List ℝ)) : Json :=
  Json.arr (rs.map write_record)

/-- Deserialization of a vector of numbers; any non-number element is a
format error. -/
def read_vec : List Json → Option (List ℝ)
  | [] => some []
  | Json.num q :: js => (read_vec js).map (fun v => q :: v)
  | _ => none

/-- Deserialization of one record: a two-element array holding a string and
an array of numbers. -/
def read_record : Json → Option (String × List ℝ)
  | Json.arr [Json.str s, Json.arr v] => (read_vec v).map (fun w => (s, w))
  | _ => none

/-- Deserialization of a list of records. -/
def read_items : List Json → Option (List (String × List ℝ))
  | [] => some []
  | j :: js =>
    match read_record j, read_items js with
    | some r, some rs => some (r :: rs)
    | _, _ => none

/-- Deserialization of the whole store (`serde_json::from_reader` into
`Vec<(String, Vec<f32>)>`). -/
def read_store : Json → Option (List (String × List ℝ))
  | Json.arr js => read_items js
  | _ => none

/-! ## Cosine similarity (`cosine_similarity` in src/main.rs) -/

/-- `a.iter().zip(b).map(|(x, y)| x * y).sum()` — note that `zip` silently
truncates to the shorter of the two vectors. -/
def dot_product (a b : List ℝ) : ℝ :=
  ((a.zip b).map (fun p => p.1 * p.2)).sum

/-- `v.iter().map(|x| x * x).sum()` — the squared Euclidean norm. -/
def sum_sq (v : List ℝ) : ℝ :=
  (v.map (fun x => x * x)).sum

/-- `cosine_similarity`: `dot / (norm_a * norm_b)` where the norms are the
square roots of `sum_sq`.  When either norm is zero the Rust code computes
the IEEE `0.0 / 0.0 = NaN` (the numerator is forced to zero as well), which
the model represents as `none`. -/
noncomputable def cosine_similarity (a b : List ℝ) : Option ℝ :=
  if sum_sq a = 0 ∨ sum_sq b = 0 then none
  else some (dot_product a b / (Real.sqrt (sum_sq a) * Real.sqrt (sum_sq b)))

/-! ## The query ranker (`Command::Query` arm of `main`) -/

/-- Three-way comparison of two non-NaN floats, the value
`partial_cmp` yields on numbers. -/
noncomputable def rcompare (u v : ℝ) : Ordering :=
  if u < v then Ordering.lt else if u = v then Ordering.eq else Ordering.gt

/-- `f32::partial_cmp`: `none` exactly when an operand is NaN. -/
noncomputable def pcmp : Option ℝ → Option ℝ → Option Ordering
  | some u, some v => some (rcompare u v)
  | _, _ => none

/-- The sort comparator `|a, b| b.0.partial_cmp(&a.0)` (descending by
score); the `.unwrap()` panic on `none` is handled by the sort below. -/
noncomputable def cmp_desc (a b : Option ℝ × String) : Option Ordering :=
  pcmp b.1 a.1

/-- One insertion step of the stable sort: the new element passes every
element it does not strictly precede, so equal-comparing elements keep
their original relative order.  A `none` comparison (NaN operand) is the
`unwrap` panic. -/
noncomputable def insert_sorted (x : Option ℝ × String) :
    List (Option ℝ × String) → Option (List (Option ℝ × String))
  | [] => some [x]
  | y :: ys =>
    match cmp_desc x y with
    | none => none
    | some Ordering.lt => some (x :: y :: ys)
    | some _ => (insert_sorted x ys).map (fun r => y :: r)

/-- `results.sort_by(|a, b| b.0.partial_cmp(&a.0).unwrap())`, modelled as a
stable insertion sort; `none` is the comparator panic aborting the query. -/
noncomputable def sort_by_score (l : List (Option ℝ × String)) :
    Option (List (Option ℝ × String)) :=
  l.foldl (fun acc x => acc.bind (insert_sorted x)) (some [])

/-- The scored list built by the query arm:
`stored_embeddings.map(|(doc, embedding)| (cosine_similarity(query, &embedding), doc))`. -/
noncomputable def score_results (query : List ℝ) (store : List (String × List ℝ)) :
    List (Option ℝ × String) :=
  store.map (fun p => (cosine_similarity query p.2, p.1))

/-- The whole ranking of the query arm: score, sort descending, then
`take(top_k)`.  `none` models the process aborting on the comparator
panic. -/
noncomputable def rank (query : List ℝ) (store : List (String × List ℝ))
    (top_k : ℕ) : Option (List (Option ℝ × String)) :=
  (sort_by_score (score_results query store)).map (List.take top_k)

/-! ## Codec helper lemmas -/

theorem read_vec_write (v : List ℝ) : read_vec (v.map Json.num) = some v := by
  induction v with
  | nil => rfl
  | cons x xs ih => simp [read_vec, ih]

theorem read_record_write (r : String × List ℝ) :
    read_record (write_record r) = some r := by
  simp [read_record, write_record, read_vec_write]

theorem read_items_write (rs : List (String × List ℝ)) :
    read_items (rs.map write_record) = some rs := by
  induction rs with
  | nil => rfl
  | cons r rs ih => simp [read_items, read_record_write, ih]

/-- C1.  Store round-trip: deserializing the serialized form of any finite
record sequence yields the records exactly — labels as exact strings,
vectors element-wise, the number values carried without re-quantization. -/
theorem c1_store_round_trip (rs : List (String × List ℝ)) :
    read_store (write_store rs) = some rs := by
  simp [read_store, write_store, read_items_write]

/-! ## Chunk line attribution (`Command::Chunk` arm of `main`) -/

/-- Rust's `str::lines().count()`: lines are separated by `'\n'` (a
preceding `'\r'` is stripped from the content but does not change the
count), and a trailing newline does not open a final empty line. -/
def lines_count (s : String) : ℕ :=
  if s.data = [] then 0
  else s.data.count '\n' + (if s.data.getLast? = some '\n' then 0 else 1)

/-- The `scan` computing `line_counts` in the chunk arm: the accumulator is
the last attributed line (starting at 0), each chunk gets the range
`(acc + 1, acc + lines)`. -/
def line_counts (acc : ℕ) : List String → List (ℕ × ℕ)
  | [] => []
  | c :: cs => (acc + 1, acc + lines_count c) :: line_counts (acc + lines_count c) cs

theorem line_counts_length (cs : List String) (a : ℕ) :
    (line_counts a cs).length = cs.length := by
  induction cs generalizing a with
  | nil => rfl
  | cons c cs ih => simp [line_counts, ih]

theorem line_counts_end_eq (cs : List String) :
    ∀ (a i : ℕ), i < cs.length →
      ((line_counts a cs).getD i (0, 0)).2 + 1
        = ((line_counts a cs).getD i (0, 0)).1 + lines_count (cs.getD i "") := by
  induction cs with
  | nil => intro a i h; simp at h
  | cons c cs ih =>
    intro a i h
    match i with
    | 0 => simp [line_counts]; omega
    | j + 1 =>
      simp only [line_counts, List.getD_cons_succ]
      exact ih _ j (by simpa using h)

theorem line_counts_adjacent (cs : List String) :
    ∀ (a i : ℕ), i + 1 < cs.length →
      ((line_counts a cs).getD (i + 1) (0, 0)).1
        = ((line_counts a cs).getD i (0, 0)).2 + 1 := by
  induction cs with
  | nil => intro a i h; simp at h
  | cons c cs ih =>
    intro a i h
    match i with
    | 0 =>
      have hcs : cs ≠ [] := by
        intro hnil
        rw [hnil] at h
        simp at h
      match cs, hcs with
      | d :: cs2, _ => simp [line_counts]
    | j + 1 =>
      simp only [line_counts, List.getD_cons_succ]
      exact ih _ j (by simpa using h)

theorem line_counts_last (cs : List String) :
    ∀ (a : ℕ), cs ≠ [] →
      ∃ s, (line_counts a cs).getLast? = some (s, a + (cs.map lines_count).sum) := by
  induction cs with
  | nil => intro a h; exact absurd rfl h
  | cons c cs ih =>
    intro a h
    match cs with
    | [] => exact ⟨a + 1, by simp [line_counts]⟩
    | d :: cs2 =>
      obtain ⟨s, hs⟩ := ih (a + lines_count c) (by simp)
      refine ⟨s, ?_⟩
      have step2 : line_counts (a + lines_count c) (d :: cs2)
          = (a + lines_count c + 1, a + lines_count c + lines_count d)
            :: line_counts (a + lines_count c + lines_count d) cs2 := rfl
      have step : line_counts a (c :: d :: cs2)
          = (a + 1, a + lines_count c) :: line_counts (a + lines_count c) (d :: cs2) := rfl
      rw [step, step2, List.getLast?_cons_cons, ← step2, hs]
      simp only [List.map_cons, List.sum_cons, Option.some.injEq, Prod.mk.injEq, true_and]
      omega

/-! ## The chunker itself (external `text_splitter` crate) -/

/-- Concatenation of a list of texts. -/
def concat_all (l : List String) : String :=
  l.foldr (fun s r => s ++ r) ""

/-- Modelled from the spec: the semantic splitting lives in the external
`text_splitter` crate, which is not part of this repository; §4.1 describes
it as greedily accumulating semantic units into the current chunk until
adding the next unit would exceed `max_tokens` under an opaque
deterministic token-counting function, then starting a new chunk.  `cur`
is the chunk being accumulated. -/
def chunk_go (tokens : String → ℕ) (max_tokens : ℕ) (cur : String) :
    List String → List String
  | [] => [cur]
  | u :: us =>
    if max_tokens < tokens (cur ++ u) then cur :: chunk_go tokens max_tokens u us
    else chunk_go tokens max_tokens (cur ++ u) us

/-- Modelled from the spec: `chunk(text, max_tokens)` over a semantic-unit
decomposition `units` of the text (the concatenation of `units` is the
text); empty text (no units) yields the empty chunk sequence. -/
def chunk (tokens : String → ℕ) (max_tokens : ℕ) : List String → List String
  | [] => []
  | u :: us => chunk_go tokens max_tokens u us

theorem chunk_go_concat (tokens : String → ℕ) (max_tokens : ℕ) :
    ∀ (us : List String) (cur : String),
      concat_all (chunk_go tokens max_tokens cur us) = cur ++ concat_all us := by
  intro us
  induction us with
  | nil => intro cur; rfl
  | cons u us ih =>
    intro cur
    by_cases h : max_tokens < tokens (cur ++ u)
    · simp only [chunk_go, if_pos h]
      show cur ++ concat_all (chunk_go tokens max_tokens u us) = _
      rw [ih u]
      rfl
    · simp only [chunk_go, if_neg h]
      rw [ih (cur ++ u)]
      show cur ++ u ++ concat_all us = cur ++ (u ++ concat_all us)
      rw [String.append_assoc]

theorem chunk_go_ne_nil (tokens : String → ℕ) (max_tokens : ℕ) :
    ∀ (us : List String) (cur : String), chunk_go tokens max_tokens cur us ≠ [] := by
  intro us
  induction us with
  | nil => intro cur; simp [chunk_go]
  | cons u us ih =>
    intro cur
    by_cases h : max_tokens < tokens (cur ++ u)
    · simp [chunk_go, if_pos h]
    · simpa [chunk_go, if_neg h] using ih (cur ++ u)

/-! ## The embed label (`Command::Embed` arm of `main`) -/

/-- One character of Rust's `Debug` escaping for strings, restricted to the
escapes that can occur in file names: quote, backslash and the common
control characters (the full `escape_debug` also covers other
non-printables via `\u` sequences). -/
def escape_char (c : Char) : List Char :=
  if c = '"' then ['\\', '"']
  else if c = '\\' then ['\\', '\\']
  else if c = '\n' then ['\\', 'n']
  else if c = '\t' then ['\\', 't']
  else if c = '\r' then ['\\', 'r']
  else [c]

/-- Rust's `Debug` formatting of an `OsStr` holding valid UTF-8 (the
`{base_name:?}` interpolation): the name is wrapped in double quotes and
special characters are backslash-escaped. -/
def debug_fmt (s : String) : String :=
  "\"" ++ String.mk (s.data.flatMap escape_char) ++ "\""

/-- The label built by the embed arm:
`format!("From: {base_name:?}\n{content}")`. -/
def make_label (name content : String) : String :=
  "From: " ++ debug_fmt name ++ "\n" ++ content

theorem bind_escape_of_plain :
    ∀ (l : List Char), (∀ c ∈ l, escape_char c = [c]) → l.flatMap escape_char = l := by
  intro l
  induction l with
  | nil => intro h; rfl
  | cons c cs ih =>
    intro h
    have hc : escape_char c = [c] := h c (by simp)
    have hcs : cs.flatMap escape_char = cs := ih fun d hd => h d (by simp [hd])
    simp [List.flatMap_cons, hc]
    simpa using hcs

/-- C6.  Chunk line attribution: for any chunk sequence (in particular the
one produced for any input text), the first chunk starts at line 1, each
subsequent chunk starts one past the previous chunk's end line, and each
chunk's end line satisfies `end + 1 = start + lines` (i.e. it equals
`start + lines − 1`), `lines` being the newline-delimited line count of the
chunk text. -/
theorem c6_line_attribution (cs : List String) :
    (cs ≠ [] → ((line_counts 0 cs).getD 0 (0, 0)).1 = 1)
    ∧ (∀ i, i + 1 < cs.length →
        ((line_counts 0 cs).getD (i + 1) (0, 0)).1
          = ((line_counts 0 cs).getD i (0, 0)).2 + 1)
    ∧ (∀ i, i < cs.length →
        ((line_counts 0 cs).getD i (0, 0)).2 + 1
          = ((line_counts 0 cs).getD i (0, 0)).1 + lines_count (cs.getD i "")) := by
  refine ⟨?_, ?_, ?_⟩
  · intro h
    match cs, h with
    | c :: cs2, _ => rfl
  · intro i h
    exact line_counts_adjacent cs 0 i h
  · intro i h
    exact line_counts_end_eq cs 0 i h

/-- Witness for C6 on the concrete chunk list `["a\nb", "c"]`
(ranges `(1, 2)` and `(3, 3)`). -/
theorem c6_line_attribution_witness :
    ((line_counts 0 ["a\nb", "c"]).getD 0 (0, 0)).1 = 1
    ∧ ((line_counts 0 ["a\nb", "c"]).getD 1 (0, 0)).1
        = ((line_counts 0 ["a\nb", "c"]).getD 0 (0, 0)).2 + 1
    ∧ ((line_counts 0 ["a\nb", "c"]).getD 1 (0, 0)).2 + 1
        = ((line_counts 0 ["a\nb", "c"]).getD 1 (0, 0)).1
            + lines_count (["a\nb", "c"].getD 1 "") :=
  ⟨(c6_line_attribution ["a\nb", "c"]).1 (by decide),
   (c6_line_attribution ["a\nb", "c"]).2.1 0 (by decide),
   (c6_line_attribution ["a\nb", "c"]).2.2 1 (by decide)⟩

/-- C7 (amended).  Chunk coverage: concatenating the chunk texts in order
reconstructs the original text exactly, and the last chunk's end line
equals the sum of the per-chunk line counts — which exceeds the document's
total line count whenever a chunk boundary falls inside a line, so the
original "equals the document's total line count" only holds for
newline-aligned chunkings (see `c7_counterexample`). -/
theorem c7_chunk_coverage (tokens : String → ℕ) (max_tokens : ℕ)
    (units : List String) (_hm : 0 < max_tokens) (hu : units ≠ []) :
    concat_all (chunk tokens max_tokens units) = concat_all units
    ∧ ∃ s, (line_counts 0 (chunk tokens max_tokens units)).getLast?
        = some (s, ((chunk tokens max_tokens units).map lines_count).sum) := by
  match units, hu with
  | u :: us, _ =>
    refine ⟨?_, ?_⟩
    · show concat_all (chunk_go tokens max_tokens u us) = _
      rw [chunk_go_concat]
      rfl
    · have hne : chunk tokens max_tokens (u :: us) ≠ [] :=
        chunk_go_ne_nil tokens max_tokens us u
      obtain ⟨s, hs⟩ := line_counts_last (chunk tokens max_tokens (u :: us)) 0 hne
      exact ⟨s, by simpa using hs⟩

/-- Witness for C7 (amended): one unit `"ab"` within budget gives the single
chunk `"ab"`, covering the text with final end line 1. -/
theorem c7_chunk_coverage_witness :
    concat_all (chunk String.length 2 ["ab"]) = concat_all ["ab"]
    ∧ ∃ s, (line_counts 0 (chunk String.length 2 ["ab"])).getLast?
        = some (s, ((chunk String.length 2 ["ab"]).map lines_count).sum) :=
  c7_chunk_coverage String.length 2 ["ab"] (by decide) (by decide)

/-- Counterexample to C7 as stated: splitting the one-line text `"ab"` into
the chunks `"a"` and `"b"` (token budget 1, token count = byte length)
reconstructs the text, but the last chunk's end line is 2 while the
document's total line count is 1. -/
theorem c7_counterexample :
    chunk String.length 1 ["a", "b"] = ["a", "b"]
    ∧ concat_all (chunk String.length 1 ["a", "b"]) = concat_all ["a", "b"]
    ∧ ((line_counts 0 (chunk String.length 1 ["a", "b"])).getLast?).map Prod.snd
        ≠ some (lines_count (concat_all ["a", "b"])) := by
  refine ⟨?_, ?_, ?_⟩ <;> decide

/-- C8 (amended).  Label format: the embed arm's `{base_name:?}`
interpolation is Rust `Debug` formatting, so the stored label is
`From: "<filename>"` — the file name wrapped in double quotes (with
Debug escaping) — followed by a newline and the file's content, not the
bare `From: <filename>`.  For names needing no escaping the label is
exactly `From: "` + name + `"` + newline + content. -/
theorem c8_label_format (name content : String)
    (h : ∀ c ∈ name.data, escape_char c = [c]) :
    make_label name content = "From: \"" ++ name ++ "\"\n" ++ content := by
  unfold make_label debug_fmt
  rw [bind_escape_of_plain name.data h]
  have e1 : String.mk name.data = name := rfl
  rw [e1]
  apply String.ext
  simp [List.append_assoc]

/-- Witness for C8 (amended) at name `"a.txt"`, content `"x"`. -/
theorem c8_label_format_witness :
    make_label "a.txt" "x" = "From: \"a.txt\"\nx" :=
  c8_label_format "a.txt" "x" (by decide)

/-- Counterexample to C8 as stated: for the file name `a.txt` with content
`x` the code produces `From: "a.txt"\nx` (quotes included), not the claimed
`From: a.txt\nx`. -/
theorem c8_counterexample :
    make_label "a.txt" "x" ≠ "From: a.txt\nx" := by
  decide

/-! ## Ranker helper lemmas -/

/-- Descending-score order on scored results: both scores are numbers and
the left one is at least the right one. -/
def score_ge (a b : Option ℝ × String) : Prop :=
  ∃ u v, a.1 = some u ∧ b.1 = some v ∧ v ≤ u

theorem pcmp_none_right (o : Option ℝ) : pcmp o none = none := by
  cases o <;> rfl

theorem pcmp_none_left (o : Option ℝ) : pcmp none o = none := by
  cases o <;> rfl

theorem rcompare_lt {u v : ℝ} (h : u < v) : rcompare u v = Ordering.lt := by
  simp [rcompare, h]

theorem rcompare_eq {u : ℝ} : rcompare u u = Ordering.eq := by
  simp [rcompare]

theorem rcompare_gt {u v : ℝ} (h : v < u) : rcompare u v = Ordering.gt := by
  have h1 : ¬ u < v := lt_asymm h
  have h2 : u ≠ v := by
    intro he
    rw [he] at h
    exact lt_irrefl v h
  simp [rcompare, h1, h2]

theorem insert_sorted_length :
    ∀ (l : List (Option ℝ × String)) (x r), insert_sorted x l = some r →
      r.length = l.length + 1 := by
  intro l
  induction l with
  | nil =>
    intro x r h
    simp only [insert_sorted, Option.some.injEq] at h
    rw [← h]
    rfl
  | cons y ys ih =>
    intro x r h
    simp only [insert_sorted] at h
    cases hc : cmp_desc x y with
    | none => rw [hc] at h; cases h
    | some o =>
      rw [hc] at h
      match o, h with
      | Ordering.lt, h =>
        simp only [Option.some.injEq] at h
        rw [← h]
        rfl
      | Ordering.eq, h =>
        cases hi : insert_sorted x ys with
        | none => rw [hi] at h; cases h
        | some r2 =>
          rw [hi] at h
          simp only [Option.map_some', Option.some.injEq] at h
          rw [← h]
          simp [ih x r2 hi]
      | Ordering.gt, h =>
        cases hi : insert_sorted x ys with
        | none => rw [hi] at h; cases h
        | some r2 =>
          rw [hi] at h
          simp only [Option.map_some', Option.some.injEq] at h
          rw [← h]
          simp [ih x r2 hi]

theorem insert_sorted_ok (x : Option ℝ × String) :
    ∀ (l : List (Option ℝ × String)),
      (x.1).isSome → (∀ y ∈ l, (y.1).isSome) → List.Pairwise score_ge l →
      ∃ r, insert_sorted x l = some r ∧ r.Perm (x :: l) ∧ List.Pairwise score_ge r ∧
        ∀ s : ℝ, r.filter (fun p => decide (p.1 = some s))
          = l.filter (fun p => decide (p.1 = some s))
            ++ if x.1 = some s then [x] else [] := by
  intro l
  induction l with
  | nil =>
    intro hx _ _
    refine ⟨[x], rfl, List.Perm.refl _, List.pairwise_singleton _ _, ?_⟩
    intro s
    by_cases hxs : x.1 = some s <;> simp [hxs]
  | cons y ys ih =>
    intro hx hl hp
    obtain ⟨u, hu⟩ := Option.isSome_iff_exists.1 hx
    obtain ⟨v, hv⟩ := Option.isSome_iff_exists.1 (hl y (by simp))
    have hcmp : cmp_desc x y = some (rcompare v u) := by
      simp [cmp_desc, hu, hv, pcmp]
    by_cases hvu : v < u
    · -- the new element strictly precedes the head: it is placed in front
      have hc : cmp_desc x y = some Ordering.lt := by rw [hcmp, rcompare_lt hvu]
      refine ⟨x :: y :: ys, by simp [insert_sorted, hc], List.Perm.refl _, ?_, ?_⟩
      · constructor
        · intro z hz
          rcases List.mem_cons.1 hz with rfl | hzys
          · exact ⟨u, v, hu, hv, le_of_lt hvu⟩
          · obtain ⟨v2, w, hv2, hw, hwv⟩ := (List.pairwise_cons.1 hp).1 z hzys
            have hvv : v2 = v := by
              rw [hv] at hv2
              exact (Option.some.inj hv2).symm
            exact ⟨u, w, hu, hw, le_trans hwv (le_of_lt (hvv ▸ hvu))⟩
        · exact hp
      · intro s
        by_cases hxs : x.1 = some s
        · have hus : u = s := by
            rw [hu] at hxs
            exact Option.some.inj hxs
          have hall : ∀ z ∈ y :: ys, ¬ (z.1 = some s) := by
            intro z hz hzs
            rcases List.mem_cons.1 hz with rfl | hzys
            · rw [hv] at hzs
              have hvs : v = s := Option.some.inj hzs
              rw [hvs, hus] at hvu
              exact lt_irrefl s hvu
            · obtain ⟨v2, w, hv2, hw, hwv⟩ := (List.pairwise_cons.1 hp).1 z hzys
              have hvv : v2 = v := by
                rw [hv] at hv2
                exact (Option.some.inj hv2).symm
              rw [hw] at hzs
              have hws : w = s := Option.some.inj hzs
              have : w < u := lt_of_le_of_lt (hvv ▸ hwv) hvu
              rw [hws, hus] at this
              exact lt_irrefl s this
          have hnil : (y :: ys).filter (fun p => decide (p.1 = some s)) = [] := by
            rw [List.filter_eq_nil_iff]
            intro z hz
            simpa using hall z hz
          rw [List.filter_cons_of_pos (by simpa using hxs), hnil]
          simp [hxs]
        · rw [List.filter_cons_of_neg (by simpa using hxs)]
          simp [hxs]
    · -- the head stays in front: insert into the tail (stability)
      have hle : u ≤ v := not_lt.1 hvu
      have harm : insert_sorted x (y :: ys)
          = (insert_sorted x ys).map (fun r => y :: r) := by
        rcases eq_or_lt_of_le hle with he | hlt2
        · have h2 : rcompare v u = Ordering.eq := by
            rw [he]
            exact rcompare_eq
          simp [insert_sorted, hcmp, h2]
        · have h2 : rcompare v u = Ordering.gt := rcompare_gt hlt2
          simp [insert_sorted, hcmp, h2]
      obtain ⟨r2, hr2, hperm2, hpair2, hfil2⟩ :=
        ih hx (fun z hz => hl z (by simp [hz])) (List.pairwise_cons.1 hp).2
      refine ⟨y :: r2, by simp [harm, hr2], ?_, ?_, ?_⟩
      · exact (hperm2.cons y).trans (List.Perm.swap x y ys)
      · constructor
        · intro z hz
          rcases List.mem_cons.1 ((hperm2.mem_iff).1 hz) with rfl | hzys
          · exact ⟨v, u, hv, hu, hle⟩
          · exact (List.pairwise_cons.1 hp).1 z hzys
        · exact hpair2
      · intro s
        by_cases hys : y.1 = some s
        · rw [List.filter_cons_of_pos (by simpa using hys),
            List.filter_cons_of_pos (by simpa using hys), hfil2 s]
          simp
        · rw [List.filter_cons_of_neg (by simpa using hys),
            List.filter_cons_of_neg (by simpa using hys)]
          exact hfil2 s

theorem foldl_insert_none :
    ∀ (l : List (Option ℝ × String)),
      l.foldl (fun acc x => acc.bind (insert_sorted x)) none = none := by
  intro l
  induction l with
  | nil => rfl
  | cons x xs ih => simpa using ih

theorem sort_fold_ok :
    ∀ (l acc : List (Option ℝ × String)),
      (∀ x ∈ acc, (x.1).isSome) → (∀ x ∈ l, (x.1).isSome) →
      List.Pairwise score_ge acc →
      ∃ r, l.foldl (fun a2 x => a2.bind (insert_sorted x)) (some acc) = some r
        ∧ r.Perm (acc ++ l) ∧ List.Pairwise score_ge r
        ∧ ∀ s : ℝ, r.filter (fun p => decide (p.1 = some s))
            = acc.filter (fun p => decide (p.1 = some s))
              ++ l.filter (fun p => decide (p.1 = some s)) := by
  intro l
  induction l with
  | nil =>
    intro acc ha _ hp
    exact ⟨acc, rfl, by simp, hp, by simp⟩
  | cons x xs ih =>
    intro acc ha hl hp
    obtain ⟨r1, hr1, hperm1, hpair1, hfil1⟩ :=
      insert_sorted_ok x acc (hl x (by simp)) ha hp
    have ha1 : ∀ z ∈ r1, (z.1).isSome := by
      intro z hz
      rcases List.mem_cons.1 ((hperm1.mem_iff).1 hz) with rfl | hza
      · exact hl z (by simp)
      · exact ha z hza
    obtain ⟨r, hr, hperm, hpair, hfil⟩ :=
      ih r1 ha1 (fun z hz => hl z (by simp [hz])) hpair1
    refine ⟨r, ?_, ?_, hpair, ?_⟩
    · have hstep : (x :: xs).foldl (fun a2 z => a2.bind (insert_sorted z)) (some acc)
          = xs.foldl (fun a2 z => a2.bind (insert_sorted z)) (insert_sorted x acc) := rfl
      rw [hstep, hr1]
      exact hr
    · have h1 : List.Perm (r1 ++ xs) (x :: (acc ++ xs)) := hperm1.append_right xs
      have h2 : List.Perm (acc ++ x :: xs) (x :: (acc ++ xs)) := List.perm_middle
      exact (hperm.trans h1).trans h2.symm
    · intro s
      rw [hfil s, hfil1 s]
      by_cases hxs : x.1 = some s
      · rw [List.filter_cons_of_pos (by simpa using hxs)]
        simp [hxs, List.append_assoc]
      · rw [List.filter_cons_of_neg (by simpa using hxs)]
        simp [hxs]

theorem sort_nan_aux :
    ∀ (l acc : List (Option ℝ × String)), acc ≠ [] → (∃ x ∈ l, x.1 = none) →
      l.foldl (fun a2 x => a2.bind (insert_sorted x)) (some acc) = none := by
  intro l
  induction l with
  | nil =>
    intro acc _ hnan
    obtain ⟨x, hx, _⟩ := hnan
    simp at hx
  | cons x xs ih =>
    intro acc ha hnan
    by_cases hx : x.1 = none
    · match acc, ha with
      | y :: ys, _ =>
        have hc : cmp_desc x y = none := by
          unfold cmp_desc
          rw [hx]
          exact pcmp_none_right _
        have hins : insert_sorted x (y :: ys) = none := by
          simp [insert_sorted, hc]
        have hstep : (x :: xs).foldl (fun a2 z => a2.bind (insert_sorted z)) (some (y :: ys))
            = xs.foldl (fun a2 z => a2.bind (insert_sorted z)) (insert_sorted x (y :: ys)) := rfl
        rw [hstep, hins]
        exact foldl_insert_none xs
    · have hnan2 : ∃ z ∈ xs, z.1 = none := by
        obtain ⟨z, hz, hzn⟩ := hnan
        rcases List.mem_cons.1 hz with rfl | hz2
        · exact absurd hzn hx
        · exact ⟨z, hz2, hzn⟩
      have hstep : (x :: xs).foldl (fun a2 z => a2.bind (insert_sorted z)) (some acc)
          = xs.foldl (fun a2 z => a2.bind (insert_sorted z)) (insert_sorted x acc) := rfl
      rw [hstep]
      cases hins : insert_sorted x acc with
      | none => exact foldl_insert_none xs
      | some r1 =>
        have hr1 : r1 ≠ [] := by
          have hlen := insert_sorted_length acc x r1 hins
          intro hrn
          rw [hrn] at hlen
          simp at hlen
        exact ih r1 hr1 hnan2

theorem sort_by_score_nan (l : List (Option ℝ × String))
    (h2 : 2 ≤ l.length) (hnan : ∃ x ∈ l, x.1 = none) :
    sort_by_score l = none := by
  match l, h2 with
  | z1 :: z2 :: zs, _ =>
    unfold sort_by_score
    have hstep : (z1 :: z2 :: zs).foldl (fun a2 z => a2.bind (insert_sorted z)) (some [])
        = (z2 :: zs).foldl (fun a2 z => a2.bind (insert_sorted z)) (some [z1]) := rfl
    rw [hstep]
    by_cases h1 : z1.1 = none
    · have hc : cmp_desc z2 z1 = none := by
        unfold cmp_desc
        rw [h1]
        exact pcmp_none_left _
      have hins : insert_sorted z2 [z1] = none := by
        simp [insert_sorted, hc]
      have hstep2 : (z2 :: zs).foldl (fun a2 z => a2.bind (insert_sorted z)) (some [z1])
          = zs.foldl (fun a2 z => a2.bind (insert_sorted z)) (insert_sorted z2 [z1]) := rfl
      rw [hstep2, hins]
      exact foldl_insert_none zs
    · apply sort_nan_aux (z2 :: zs) [z1] (by simp)
      obtain ⟨x, hx, hxn⟩ := hnan
      rcases List.mem_cons.1 hx with rfl | hx2
      · exact absurd hxn h1
      · exact ⟨x, hx2, hxn⟩

/-- C9.  Empty store query: for every query vector and every `top_k`,
querying a store with zero records yields the empty result list (nothing is
printed) and no error or panic occurs. -/
theorem c9_empty_store (query : List ℝ) (top_k : ℕ) :
    rank query [] top_k = some [] := by
  simp [rank, sort_by_score, score_results]

/-- C10.  NaN score panics the ranking: when some stored record's cosine
score against the query is NaN (modelled `none`, e.g. a zero-norm vector)
and the store holds at least two records, the sort comparator's
`partial_cmp` returns `None`, the `unwrap` panics and the query aborts
(`rank = none`) instead of producing any ordering. -/
theorem c10_nan_panic (query : List ℝ) (store : List (String × List ℝ)) (top_k : ℕ)
    (hlen : 2 ≤ store.length)
    (hnan : ∃ p ∈ store, cosine_similarity query p.2 = none) :
    rank query store top_k = none := by
  have h2 : 2 ≤ (score_results query store).length := by
    simpa [score_results] using hlen
  have hnan2 : ∃ x ∈ score_results query store, x.1 = none := by
    obtain ⟨p, hp, hpn⟩ := hnan
    exact ⟨(cosine_similarity query p.2, p.1), List.mem_map_of_mem _ hp, hpn⟩
  unfold rank
  rw [sort_by_score_nan _ h2 hnan2]
  rfl

/-! ## Concrete score evaluations used by witnesses and counterexamples -/

theorem cos_one_one : cosine_similarity [(1:ℝ)] [(1:ℝ)] = some 1 := by
  unfold cosine_similarity
  rw [if_neg (by norm_num [sum_sq])]
  norm_num [dot_product, sum_sq, Real.sqrt_one]

theorem cos_one_zero : cosine_similarity [(1:ℝ)] [(0:ℝ)] = none := by
  unfold cosine_similarity
  rw [if_pos (Or.inr (show sum_sq [(0:ℝ)] = 0 by norm_num [sum_sq]))]

theorem cos_mismatch : cosine_similarity [(1:ℝ), 0] [(1:ℝ)] = some 1 := by
  unfold cosine_similarity
  rw [if_neg (by norm_num [sum_sq])]
  norm_num [dot_product, sum_sq, Real.sqrt_one]

theorem cos_ones_isSome :
    ∀ p ∈ [("a", [(1:ℝ)]), ("b", [(1:ℝ)])], (cosine_similarity [(1:ℝ)] p.2).isSome := by
  intro p hp
  rcases List.mem_cons.1 hp with rfl | hp2
  · simp [cos_one_one]
  · simp at hp2
    subst hp2
    simp [cos_one_one]

/-- Witness for C10: querying `[1]` against the records `("a", [1])` and
`("b", [0])` (the second has zero norm, so its score is NaN) aborts. -/
theorem c10_nan_panic_witness :
    rank [(1:ℝ)] [("a", [(1:ℝ)]), ("b", [(0:ℝ)])] 1 = none :=
  c10_nan_panic [(1:ℝ)] [("a", [(1:ℝ)]), ("b", [(0:ℝ)])] 1 (by norm_num)
    ⟨("b", [(0:ℝ)]), List.mem_cons_of_mem _ (List.mem_cons_self _ _), cos_one_zero⟩

/-- C2 (amended).  Top-k truncation: provided every computed score is a
number (no zero-norm NaN, which would panic the sort — see
`c2_counterexample`), the ranking returns exactly `min(top_k, N)` results,
`top_k = 0` yields the empty sequence, and for `top_k >= N` every stored
record appears exactly once (the returned labels are a permutation of the
stored labels, with multiplicity). -/
theorem c2_topk_truncation (query : List ℝ) (store : List (String × List ℝ)) (top_k : ℕ)
    (hs : ∀ p ∈ store, (cosine_similarity query p.2).isSome) :
    ∃ r, rank query store top_k = some r
      ∧ r.length = min top_k store.length
      ∧ (top_k = 0 → r = [])
      ∧ (store.length ≤ top_k → (r.map Prod.snd).Perm (store.map Prod.fst)) := by
  have hl : ∀ x ∈ score_results query store, (x.1).isSome := by
    intro x hx
    obtain ⟨p, hp, rfl⟩ := List.mem_map.1 hx
    exact hs p hp
  obtain ⟨r0, hr0, hperm, _hpair, _hfil⟩ :=
    sort_fold_ok (score_results query store) [] (by simp) hl List.Pairwise.nil
  have hperm0 : r0.Perm (score_results query store) := by simpa using hperm
  have hlen0 : r0.length = store.length := by
    rw [hperm0.length_eq]
    simp [score_results]
  refine ⟨r0.take top_k, ?_, ?_, ?_, ?_⟩
  · unfold rank sort_by_score
    rw [hr0]
    rfl
  · rw [List.length_take, hlen0]
  · intro h
    rw [h]
    simp
  · intro hk
    have htake : r0.take top_k = r0 := List.take_of_length_le (by rw [hlen0]; exact hk)
    rw [htake]
    have h1 : ((score_results query store).map Prod.snd) = store.map Prod.fst := by
      simp [score_results]
    rw [← h1]
    exact hperm0.map Prod.snd

/-- Witness for C2 (amended): two unit records, `top_k = 5` returns both,
each exactly once. -/
theorem c2_topk_truncation_witness :
    ∃ r, rank [(1:ℝ)] [("a", [(1:ℝ)]), ("b", [(1:ℝ)])] 5 = some r
      ∧ r.length = 2
      ∧ (r.map Prod.snd).Perm ["a", "b"] := by
  obtain ⟨r, h1, h2, _h3, h4⟩ :=
    c2_topk_truncation [(1:ℝ)] [("a", [(1:ℝ)]), ("b", [(1:ℝ)])] 5 cos_ones_isSome
  refine ⟨r, h1, ?_, ?_⟩
  · simpa using h2
  · simpa using h4 (by norm_num)

/-- Counterexample to C2 as stated: a store of two zero-vector records has
NaN scores, the comparator unwrap panics, and the query returns nothing
rather than `min(2, 2) = 2` results. -/
theorem c2_counterexample :
    rank [(1:ℝ)] [("a", [(0:ℝ)]), ("b", [(0:ℝ)])] 2 = none := by
  have h := sort_by_score_nan
      (score_results [(1:ℝ)] [("a", [(0:ℝ)]), ("b", [(0:ℝ)])])
      (by simp [score_results])
      ⟨(cosine_similarity [(1:ℝ)] [(0:ℝ)], "a"), by simp [score_results], cos_one_zero⟩
  unfold rank
  rw [h]
  rfl

/-- C3.  Ranking order and determinism: whenever the sort completes
(`some r` — the comparator panic on NaN aborts instead, and then there are
no results at all), the results are ordered by non-increasing score, ties
keep the records' original insertion order (stable sort, expressed by the
equal-score subsequences being preserved verbatim), and ranking is a pure
function, so identical inputs give identical output. -/
theorem c3_ordering_determinism (query : List ℝ) (store : List (String × List ℝ))
    (r : List (Option ℝ × String))
    (hr : sort_by_score (score_results query store) = some r) :
    List.Pairwise score_ge r
    ∧ (∀ s : ℝ, r.filter (fun p => decide (p.1 = some s))
        = (score_results query store).filter (fun p => decide (p.1 = some s)))
    ∧ ∀ top_k, rank query store top_k = rank query store top_k := by
  by_cases hall : ∀ x ∈ score_results query store, (x.1).isSome
  · obtain ⟨r0, hr0, _hperm, hpair, hfil⟩ :=
      sort_fold_ok (score_results query store) [] (by simp) hall List.Pairwise.nil
    have hrr : r = r0 := by
      unfold sort_by_score at hr
      rw [hr0] at hr
      exact (Option.some.inj hr).symm
    subst hrr
    refine ⟨hpair, ?_, fun _ => rfl⟩
    intro s
    rw [hfil s]
    simp
  · have hnan : ∃ x ∈ score_results query store, x.1 = none := by
      push_neg at hall
      obtain ⟨x, hx, hxn⟩ := hall
      exact ⟨x, hx, Option.not_isSome_iff_eq_none.1 hxn⟩
    have hlen : (score_results query store).length < 2 := by
      by_contra hge
      push_neg at hge
      rw [sort_by_score_nan _ hge hnan] at hr
      cases hr
    rcases hsc : score_results query store with _ | ⟨z, _ | ⟨z2, zs⟩⟩
    · rw [hsc] at hnan
      simp at hnan
    · rw [hsc] at hr
      have hone : sort_by_score [z] = some [z] := rfl
      rw [hone] at hr
      have hrz : r = [z] := (Option.some.inj hr).symm
      subst hrz
      refine ⟨List.pairwise_singleton _ _, ?_, fun _ => rfl⟩
      intro s
      rfl
    · rw [hsc] at hlen
      simp only [List.length_cons] at hlen
      omega

theorem sort_by_score_ones :
    sort_by_score (score_results [(1:ℝ)] [("a", [(1:ℝ)]), ("b", [(1:ℝ)])])
      = some [(some 1, "a"), (some 1, "b")] := by
  have hsc : score_results [(1:ℝ)] [("a", [(1:ℝ)]), ("b", [(1:ℝ)])]
      = [(some 1, "a"), (some 1, "b")] := by
    simp [score_results, cos_one_one]
  rw [hsc]
  have hstep : sort_by_score [(some (1:ℝ), "a"), (some (1:ℝ), "b")]
      = insert_sorted (some (1:ℝ), "b") [(some (1:ℝ), "a")] := rfl
  have hc : cmp_desc (some (1:ℝ), "b") (some (1:ℝ), "a") = some Ordering.eq := by
    simp [cmp_desc, pcmp, rcompare_eq]
  rw [hstep]
  simp [insert_sorted, hc]

/-- Witness for C3: two records with equal score 1 stay in insertion order
`"a"` then `"b"`. -/
theorem c3_ordering_determinism_witness :
    List.Pairwise score_ge [(some (1:ℝ), "a"), (some (1:ℝ), "b")]
    ∧ ([(some (1:ℝ), "a"), (some (1:ℝ), "b")].filter (fun p => decide (p.1 = some (1:ℝ)))
        = (score_results [(1:ℝ)] [("a", [(1:ℝ)]), ("b", [(1:ℝ)])]).filter
            (fun p => decide (p.1 = some (1:ℝ))))
    ∧ rank [(1:ℝ)] [("a", [(1:ℝ)]), ("b", [(1:ℝ)])] 1
        = rank [(1:ℝ)] [("a", [(1:ℝ)]), ("b", [(1:ℝ)])] 1 :=
  have h := c3_ordering_determinism [(1:ℝ)] [("a", [(1:ℝ)]), ("b", [(1:ℝ)])]
      [(some 1, "a"), (some 1, "b")] sort_by_score_ones
  ⟨h.1, h.2.1 1, h.2.2 1⟩

/-- C4 (amended).  No dimension-mismatch failure: the code contains no
`DimensionMismatch` error.  `cosine_similarity` zips the two vectors,
silently dropping the unmatched suffix of the longer one (norms still use
the full vectors), so even when some stored vector's length differs from
the query's, the ranking still succeeds — provided no score is NaN. -/
theorem c4_no_dimension_error (query : List ℝ) (store : List (String × List ℝ)) (top_k : ℕ)
    (_hmis : ∃ p ∈ store, (p.2).length ≠ query.length)
    (hs : ∀ p ∈ store, (cosine_similarity query p.2).isSome) :
    (rank query store top_k).isSome := by
  have hl : ∀ x ∈ score_results query store, (x.1).isSome := by
    intro x hx
    obtain ⟨p, hp, rfl⟩ := List.mem_map.1 hx
    exact hs p hp
  obtain ⟨r0, hr0, _, _, _⟩ :=
    sort_fold_ok (score_results query store) [] (by simp) hl List.Pairwise.nil
  unfold rank sort_by_score
  rw [hr0]
  rfl

/-- Witness for C4 (amended): query of length 2 against a store whose only
vector has length 1 still produces a result. -/
theorem c4_no_dimension_error_witness :
    (rank [(1:ℝ), 0] [("a", [(1:ℝ)])] 1).isSome :=
  c4_no_dimension_error [(1:ℝ), 0] [("a", [(1:ℝ)])] 1
    ⟨("a", [(1:ℝ)]), List.mem_cons_self _ _, by simp⟩
    (by
      intro p hp
      simp at hp
      subst hp
      simp [cos_mismatch])

/-- Counterexample to C4 as stated: with query `[1, 0]` and the single
record `("a", [1])` the vector lengths differ, yet the ranking does not
fail with any error — it returns the record with score 1. -/
theorem c4_counterexample :
    rank [(1:ℝ), 0] [("a", [(1:ℝ)])] 1 = some [(some 1, "a")] := by
  have hsc : score_results [(1:ℝ), 0] [("a", [(1:ℝ)])] = [(some 1, "a")] := by
    simp [score_results, cos_mismatch]
  unfold rank
  rw [hsc]
  rfl

/-! ## Cosine bounds (Cauchy-Schwarz) -/

theorem sum_sq_cons (x : ℝ) (v : List ℝ) : sum_sq (x :: v) = x * x + sum_sq v := by
  simp [sum_sq]

theorem dot_product_cons (x y : ℝ) (a b : List ℝ) :
    dot_product (x :: a) (y :: b) = x * y + dot_product a b := by
  simp [dot_product]

theorem sum_sq_nonneg (v : List ℝ) : 0 ≤ sum_sq v := by
  induction v with
  | nil => simp [sum_sq]
  | cons x xs ih =>
    rw [sum_sq_cons]
    have := mul_self_nonneg x
    linarith

theorem dot_product_self (v : List ℝ) : dot_product v v = sum_sq v := by
  induction v with
  | nil => rfl
  | cons x xs ih => rw [dot_product_cons, sum_sq_cons, ih]

theorem dot_product_eq_sum :
    ∀ (n : ℕ) (a b : List ℝ), a.length = n → b.length = n →
      dot_product a b = ∑ i ∈ Finset.range n, a.getD i 0 * b.getD i 0 := by
  intro n
  induction n with
  | zero =>
    intro a b ha hb
    obtain rfl := List.length_eq_zero.1 ha
    obtain rfl := List.length_eq_zero.1 hb
    simp [dot_product]
  | succ n ih =>
    intro a b ha hb
    match a, b with
    | [], _ => simp at ha
    | x :: a2, [] => simp at hb
    | x :: a2, y :: b2 =>
      rw [dot_product_cons, Finset.sum_range_succ']
      simp only [List.getD_cons_succ, List.getD_cons_zero]
      rw [ih a2 b2 (by simpa using ha) (by simpa using hb)]
      ring

theorem sum_sq_eq_sum :
    ∀ (n : ℕ) (v : List ℝ), v.length = n →
      sum_sq v = ∑ i ∈ Finset.range n, (v.getD i 0) ^ 2 := by
  intro n
  induction n with
  | zero =>
    intro v hv
    obtain rfl := List.length_eq_zero.1 hv
    simp [sum_sq]
  | succ n ih =>
    intro v hv
    match v with
    | [] => simp at hv
    | x :: v2 =>
      rw [sum_sq_cons, Finset.sum_range_succ']
      simp only [List.getD_cons_succ, List.getD_cons_zero]
      rw [ih v2 (by simpa using hv)]
      ring

theorem dot_sq_le (a b : List ℝ) (h : a.length = b.length) :
    (dot_product a b) ^ 2 ≤ sum_sq a * sum_sq b := by
  rw [dot_product_eq_sum a.length a b rfl h.symm,
    sum_sq_eq_sum a.length a rfl, sum_sq_eq_sum a.length b h.symm]
  exact Finset.sum_mul_sq_le_sq_mul_sq _ _ _

/-- C5.  Cosine bounds: for equal-length vectors of nonzero norm the
computed score lies in `[-1, 1]`, and the self-similarity of any vector of
nonzero norm is exactly 1 (so certainly within tolerance `1e-5`). -/
theorem c5_cosine_bounds :
    (∀ (a b : List ℝ), a.length = b.length → sum_sq a ≠ 0 → sum_sq b ≠ 0 →
      ∀ c, cosine_similarity a b = some c → -1 ≤ c ∧ c ≤ 1)
    ∧ ∀ v : List ℝ, sum_sq v ≠ 0 → cosine_similarity v v = some 1 := by
  constructor
  · intro a b hlen ha hb c hc
    have ha0 : 0 < sum_sq a := lt_of_le_of_ne (sum_sq_nonneg a) (Ne.symm ha)
    have hb0 : 0 < sum_sq b := lt_of_le_of_ne (sum_sq_nonneg b) (Ne.symm hb)
    have hcval : c = dot_product a b / (Real.sqrt (sum_sq a) * Real.sqrt (sum_sq b)) := by
      unfold cosine_similarity at hc
      rw [if_neg (by push_neg; exact ⟨ha, hb⟩)] at hc
      exact (Option.some.inj hc).symm
    have hD : 0 < Real.sqrt (sum_sq a) * Real.sqrt (sum_sq b) :=
      mul_pos (Real.sqrt_pos.2 ha0) (Real.sqrt_pos.2 hb0)
    have habs : |dot_product a b| ≤ Real.sqrt (sum_sq a) * Real.sqrt (sum_sq b) := by
      have h1 : |dot_product a b| = Real.sqrt ((dot_product a b) ^ 2) :=
        (Real.sqrt_sq_eq_abs _).symm
      rw [h1, ← Real.sqrt_mul (sum_sq_nonneg a) (sum_sq b)]
      exact Real.sqrt_le_sqrt (dot_sq_le a b hlen)
    have hcabs : |c| ≤ 1 := by
      rw [hcval, abs_div, abs_of_pos hD, div_le_one hD]
      exact habs
    exact abs_le.1 hcabs
  · intro v hv
    unfold cosine_similarity
    rw [if_neg (by push_neg; exact ⟨hv, hv⟩), dot_product_self,
      Real.mul_self_sqrt (sum_sq_nonneg v), div_self hv]

/-- Witness for C5 at the vector `[1]`: score 1 within bounds and
self-similarity exactly 1. -/
theorem c5_cosine_bounds_witness :
    ((-1:ℝ) ≤ 1 ∧ (1:ℝ) ≤ 1) ∧ cosine_similarity [(1:ℝ)] [(1:ℝ)] = some 1 :=
  ⟨c5_cosine_bounds.1 [(1:ℝ)] [(1:ℝ)] rfl (by norm_num [sum_sq]) (by norm_num [sum_sq])
      1 cos_one_one,
   c5_cosine_bounds.2 [(1:ℝ)] (by norm_num [sum_sq])⟩
